import Mathlib

/-!
Verification development for the abyssal-loot-tracker repository.

The development shallowly embeds the two core modules the specification
describes, as found under src/src/abyssal_loot_tracker (the package layout;
the legacy flat modules at the repository root are an earlier revision of
the same code):

* domain/loot_run.py   — snapshot parsing and the first/last snapshot diff;
* services/price_checker.py — identifier resolution, the TTL price cache,
  response sanitization and the batch price pipeline.

Python dicts are modelled as association lists with insertion-order
semantics (assignment replaces in place, new keys append).  Python floats
are modelled by the inductive type FVal (a finite rational, NaN, or an
infinity).  Effectful steps (SDE lookups, cache reads/writes, network
fetches) are made explicit through an environment record and an event
trace.
-/

/-- Python str.split(sep) for a one-character separator: the empty text
yields one empty field, and every separator occurrence opens a new field. -/
def splitOnChar (sep : Char) : List Char → List (List Char)
  | [] => [[]]
  | c :: rest =>
    let r := splitOnChar sep rest
    if c = sep then [] :: r else (c :: r.headD []) :: r.tail

/-- Leading-whitespace trim, the first half of Python str.strip(). -/
def trimL (l : List Char) : List Char := l.dropWhile Char.isWhitespace

/-- Trailing-whitespace trim, the second half of Python str.strip(). -/
def trimR (l : List Char) : List Char := (l.reverse.dropWhile Char.isWhitespace).reverse

/-- Python str.strip(): drop whitespace from both ends. -/
def pyStrip (l : List Char) : List Char := trimR (trimL l)

/-- Does the second character list start with the first one? -/
def listStartsWith : List Char → List Char → Bool
  | [], _ => true
  | _ :: _, [] => false
  | a :: as, b :: bs => a == b && listStartsWith as bs

/-- Python substring containment (the in operator on strings). -/
def containsSeq (needle : List Char) : List Char → Bool
  | [] => needle.isEmpty
  | c :: rest => listStartsWith needle (c :: rest) || containsSeq needle rest

/-- Python str.isdigit restricted to ASCII: non-empty and all digits. -/
def pyIsDigit (l : List Char) : Bool := !l.isEmpty && l.all Char.isDigit

/-- Value of a digit string, as Python int() computes it on such input. -/
def digitsToNat (l : List Char) : Nat := l.foldl (fun a c => 10 * a + (c.toNat - 48)) 0

/-- Lookup in a Python dict modelled as an association list: first match wins
(keys are unique in any dict the code builds, so this is exact). -/
def dictLookup {α : Type} (d : List (String × α)) (k : String) : Option α :=
  match d with
  | [] => none
  | (k1, v) :: rest => if k1 = k then some v else dictLookup rest k

/-- Python dict assignment: replace in place when the key exists, append
a fresh key at the end otherwise. -/
def dictInsert {α : Type} (d : List (String × α)) (k : String) (v : α) : List (String × α) :=
  match d with
  | [] => [(k, v)]
  | (k1, v1) :: rest => if k1 = k then (k, v) :: rest else (k1, v1) :: dictInsert rest k v

/-- Well-formedness of a modelled dict: its keys are pairwise distinct,
which every real Python dict satisfies. -/
def DictWF {α : Type} (d : List (String × α)) : Prop := (d.map Prod.fst).Nodup

instance {α : Type} (d : List (String × α)) : Decidable (DictWF d) :=
  inferInstanceAs (Decidable (d.map Prod.fst).Nodup)

theorem dictLookup_dictInsert_self {α : Type} (d : List (String × α)) (k : String) (v : α) :
    dictLookup (dictInsert d k v) k = some v := by
  induction d with
  | nil => simp [dictInsert, dictLookup]
  | cons p rest ih =>
    obtain ⟨k1, v1⟩ := p
    by_cases h : k1 = k
    · simp [dictInsert, h, dictLookup]
    · simp [dictInsert, h, dictLookup, ih]

theorem dictLookup_dictInsert_ne {α : Type} (d : List (String × α)) (k k2 : String) (v : α)
    (h : k2 ≠ k) : dictLookup (dictInsert d k v) k2 = dictLookup d k2 := by
  have hne : ¬ k = k2 := fun hh => h hh.symm
  induction d with
  | nil => simp [dictInsert, dictLookup, hne]
  | cons p rest ih =>
    obtain ⟨k1, v1⟩ := p
    by_cases h1 : k1 = k
    · subst h1
      simp [dictInsert, dictLookup, hne]
    · simp only [dictInsert, if_neg h1, dictLookup]
      by_cases h2 : k1 = k2
      · simp [h2]
      · simp [h2, ih]

theorem dictLookup_append {α : Type} (d1 d2 : List (String × α)) (k : String) :
    dictLookup (d1 ++ d2) k =
      match dictLookup d1 k with
      | some v => some v
      | none => dictLookup d2 k := by
  induction d1 with
  | nil => simp [dictLookup]
  | cons p rest ih =>
    obtain ⟨k1, v1⟩ := p
    by_cases h : k1 = k
    · simp [dictLookup, h]
    · simp [dictLookup, h, ih]

theorem dictLookup_mem {α : Type} {d : List (String × α)} {k : String} {v : α}
    (h : dictLookup d k = some v) : (k, v) ∈ d := by
  induction d with
  | nil => simp [dictLookup] at h
  | cons p rest ih =>
    obtain ⟨k1, v1⟩ := p
    by_cases h1 : k1 = k
    · subst h1
      simp [dictLookup] at h
      simp [h]
    · simp [dictLookup, h1] at h
      exact List.mem_cons_of_mem _ (ih h)

theorem dictLookup_eq_none_of_not_mem_keys {α : Type} {d : List (String × α)} {k : String}
    (h : k ∉ d.map Prod.fst) : dictLookup d k = none := by
  induction d with
  | nil => rfl
  | cons p rest ih =>
    obtain ⟨k1, v1⟩ := p
    simp only [List.map_cons, List.mem_cons] at h
    push_neg at h
    have h1 : ¬ k1 = k := fun hh => h.1 hh.symm
    simp [dictLookup, h1, ih h.2]

theorem mem_keys_dictInsert {α : Type} (d : List (String × α)) (k a : String) (v : α) :
    a ∈ (dictInsert d k v).map Prod.fst ↔ a ∈ d.map Prod.fst ∨ a = k := by
  induction d with
  | nil => simp [dictInsert]
  | cons p rest ih =>
    obtain ⟨k1, v1⟩ := p
    by_cases h : k1 = k
    · subst h
      simp [dictInsert]
      tauto
    · simp [dictInsert, h, ih]
      tauto

theorem DictWF_dictInsert {α : Type} {d : List (String × α)} (k : String) (v : α)
    (h : DictWF d) : DictWF (dictInsert d k v) := by
  induction d with
  | nil => simp [DictWF, dictInsert]
  | cons p rest ih =>
    obtain ⟨k1, v1⟩ := p
    simp only [DictWF, List.map_cons, List.nodup_cons] at h
    by_cases h1 : k1 = k
    · subst h1
      simpa [DictWF, dictInsert] using h
    · have hrest := ih h.2
      simp only [DictWF, dictInsert, if_neg h1, List.map_cons, List.nodup_cons]
      refine ⟨?_, hrest⟩
      rw [mem_keys_dictInsert]
      rintro (hm | hm)
      · exact h.1 hm
      · exact h1 hm

theorem mem_dictInsert {α : Type} {d : List (String × α)} {k : String} {v : α} {p : String × α}
    (h : p ∈ dictInsert d k v) : p ∈ d ∨ p = (k, v) := by
  induction d with
  | nil => simpa [dictInsert] using h
  | cons q rest ih =>
    obtain ⟨k1, v1⟩ := q
    by_cases h1 : k1 = k
    · subst h1
      simp [dictInsert] at h
      rcases h with h | h
      · right; simp [h]
      · left; exact List.mem_cons_of_mem _ h
    · simp only [dictInsert, if_neg h1, List.mem_cons] at h
      rcases h with h | h
      · left; simp [h]
      · rcases ih h with hm | hm
        · left; exact List.mem_cons_of_mem _ hm
        · right; exact hm

theorem dropWhile_head_cases (p : Char → Bool) (l : List Char) :
    l.dropWhile p = [] ∨ ∃ a t, l.dropWhile p = a :: t ∧ p a = false := by
  induction l with
  | nil => left; rfl
  | cons c rest ih =>
    by_cases h : p c
    · simpa [List.dropWhile, h] using ih
    · right
      exact ⟨c, rest, by simp [List.dropWhile, h], by simpa using h⟩

theorem dropWhile_dropWhile (p : Char → Bool) (l : List Char) :
    (l.dropWhile p).dropWhile p = l.dropWhile p := by
  rcases dropWhile_head_cases p l with h | ⟨a, t, h, ha⟩
  · simp [h]
  · simp [h, List.dropWhile, ha]

theorem dropWhile_append_last (p : Char → Bool) (a : Char) (ha : p a = false)
    (u : List Char) : ∃ w, (u ++ [a]).dropWhile p = w ++ [a] := by
  induction u with
  | nil => exact ⟨[], by simp [List.dropWhile, ha]⟩
  | cons b u1 ih =>
    by_cases hb : p b
    · simpa [List.dropWhile, hb] using ih
    · exact ⟨b :: u1, by simp [List.dropWhile, hb]⟩

theorem trimL_trimL (l : List Char) : trimL (trimL l) = trimL l :=
  dropWhile_dropWhile _ l

theorem trimR_trimR (l : List Char) : trimR (trimR l) = trimR l := by
  unfold trimR
  rw [List.reverse_reverse, dropWhile_dropWhile]

theorem trimL_trimR_of_trimL (l : List Char) :
    trimL (trimR (trimL l)) = trimR (trimL l) := by
  rcases dropWhile_head_cases Char.isWhitespace l with h | ⟨a, t, h, ha⟩
  · simp [trimL, trimR, h, List.dropWhile]
  · unfold trimL trimR
    show ((l.dropWhile Char.isWhitespace).reverse.dropWhile Char.isWhitespace).reverse.dropWhile
        Char.isWhitespace = _
    rw [h, List.reverse_cons]
    obtain ⟨w, hw⟩ := dropWhile_append_last Char.isWhitespace a ha t.reverse
    rw [hw, List.reverse_append]
    simp [List.dropWhile, ha]

/-- Python str.strip() is idempotent: stripping an already stripped string
changes nothing. -/
theorem pyStrip_pyStrip (l : List Char) : pyStrip (pyStrip l) = pyStrip l := by
  unfold pyStrip
  rw [show trimL (trimR (trimL l)) = trimR (trimL l) from trimL_trimR_of_trimL l,
      trimR_trimR]

/-- Item from domain/loot_run.py: a name together with a quantity.  The
quantity is a Python int, modelled as an integer. -/
structure Item where
  name : String
  quantity : Int
deriving DecidableEq

/-- PricedItem from domain/loot_run.py: item details plus the prices
recorded at the time of the run. -/
structure PricedItem where
  name : String
  type_id : Int
  quantity : Int
  min_sell : Rat
  max_buy : Rat
deriving DecidableEq

/-- RunState from domain/loot_run.py: a snapshot of the inventory, a
timestamp together with a name-keyed dict of items. -/
structure RunState where
  timestamp : Rat
  items : List (String × Item)
deriving DecidableEq

/-- Contribution of one raw clipboard line, following the loop body of
RunState.from_clipboard: split the stripped line on tabs, strip the first
field into the name, skip it when empty, accept an explicit digit-only
quantity for two fields, default to one for a single field, and drop the
line otherwise. -/
def lineQty (line : List Char) : Option (String × Int) :=
  match splitOnChar '\t' (pyStrip line) with
  | [] => none
  | p0 :: rest =>
    let name := String.mk (pyStrip p0)
    if name = "" then none
    else
      match rest with
      | [p1] => if pyIsDigit p1 then some (name, (digitsToNat p1 : Int)) else none
      | [] => some (name, 1)
      | _ => none

/-- One iteration of the RunState.from_clipboard accumulation: an already
seen name has its quantity increased in place, a fresh name is inserted. -/
def parseStep (items : List (String × Item)) (line : List Char) : List (String × Item) :=
  match lineQty line with
  | none => items
  | some (name, q) =>
    match dictLookup items name with
    | some it => dictInsert items name ⟨it.name, it.quantity + q⟩
    | none => items ++ [(name, ⟨name, q⟩)]

/-- Item dict built by RunState.from_clipboard: strip the clipboard text,
split it into lines and fold the per-line accumulation. -/
def from_clipboard_items (content : String) : List (String × Item) :=
  (splitOnChar '\n' (pyStrip content.data)).foldl parseStep []

/-- RunState.from_clipboard with the clock made explicit. -/
def RunState.from_clipboard (now : Rat) (content : String) : RunState :=
  ⟨now, from_clipboard_items content⟩

/-- LootRun from domain/loot_run.py: all states of a run plus metadata. -/
structure LootRun where
  start_time : Rat
  end_time : Rat := 0
  states : List RunState := []
  comment : String := ""
  ship_type : String := "N/A"
  ship_amount : Int := 0
  weather : String := "N/A"
  tier : Int := -1
  looted_items_priced : List PricedItem := []
  consumed_items_priced : List PricedItem := []
deriving DecidableEq

/-- LootRun.add_state: append a snapshot. -/
def LootRun.add_state (run : LootRun) (state : RunState) : LootRun :=
  { run with states := run.states ++ [state] }

/-- Quantity of a name in a snapshot dict, with the Item(name, 0) default
the diff methods use for absent names. -/
def qtyD (d : List (String × Item)) (n : String) : Int :=
  ((dictLookup d n).getD ⟨n, 0⟩).quantity

/-- Loop body shared by LootRun.get_looted_items and
LootRun.get_consumed_items: record the positive difference of the iterated
quantity over the base quantity, defaulting absent names to zero. -/
def diffStep (base : List (String × Item)) (acc : List (String × Int)) (p : String × Item) :
    List (String × Int) :=
  if qtyD base p.1 < p.2.quantity then dictInsert acc p.1 (p.2.quantity - qtyD base p.1) else acc

/-- Positive part of the quantity delta of iter over base, keyed by name. -/
def diffPositive (iter base : List (String × Item)) : List (String × Int) :=
  iter.foldl (diffStep base) []

/-- Default RunState used only to give List.headD and List.getLastD a
value; the diff methods read it only behind the two-snapshot guard. -/
def dfltState : RunState := ⟨0, []⟩

/-- LootRun.get_looted_items: with fewer than two snapshots nothing is
attributed; otherwise names in the last snapshot whose quantity grew over
the first snapshot map to the positive difference. -/
def LootRun.get_looted_items (run : LootRun) : List (String × Int) :=
  if run.states.length < 2 then []
  else diffPositive (run.states.getLastD dfltState).items (run.states.headD dfltState).items

/-- LootRun.get_consumed_items: with fewer than two snapshots nothing is
attributed; otherwise names in the first snapshot whose quantity dropped by
the last snapshot map to the positive difference. -/
def LootRun.get_consumed_items (run : LootRun) : List (String × Int) :=
  if run.states.length < 2 then []
  else diffPositive (run.states.headD dfltState).items (run.states.getLastD dfltState).items

/-- Quantity a snapshot parse assigns to a name, zero when absent. -/
def qtyOf (d : List (String × Item)) (name : String) : Int :=
  match dictLookup d name with
  | some it => it.quantity
  | none => 0

/-- Quantity a parsed line contributes to a given name. -/
def lineContrib (name : String) (l : List Char) : Int :=
  match lineQty l with
  | some (n, q) => if n = name then q else 0
  | none => 0

/-- Delta recorded for a name by a diff result, zero when absent. -/
def deltaQty (d : List (String × Int)) (n : String) : Int :=
  (dictLookup d n).getD 0

theorem qtyOf_dictInsert_self (d : List (String × Item)) (k : String) (v : Item) :
    qtyOf (dictInsert d k v) k = v.quantity := by
  simp [qtyOf, dictLookup_dictInsert_self]

theorem qtyOf_dictInsert_ne (d : List (String × Item)) (k k2 : String) (v : Item)
    (h : k2 ≠ k) : qtyOf (dictInsert d k v) k2 = qtyOf d k2 := by
  simp [qtyOf, dictLookup_dictInsert_ne d k k2 v h]

theorem qtyOf_append_single_self (d : List (String × Item)) (k : String) (v : Item)
    (h : dictLookup d k = none) : qtyOf (d ++ [(k, v)]) k = v.quantity := by
  simp [qtyOf, dictLookup_append, h, dictLookup]

theorem qtyOf_append_single_ne (d : List (String × Item)) (k k2 : String) (v : Item)
    (h : k2 ≠ k) : qtyOf (d ++ [(k, v)]) k2 = qtyOf d k2 := by
  have hne : ¬ k = k2 := fun hh => h hh.symm
  unfold qtyOf
  rw [dictLookup_append]
  cases dictLookup d k2 with
  | some it => rfl
  | none => simp [dictLookup, hne]

theorem qtyOf_parseStep (acc : List (String × Item)) (l : List Char) (name : String) :
    qtyOf (parseStep acc l) name = qtyOf acc name + lineContrib name l := by
  unfold parseStep lineContrib
  cases hq : lineQty l with
  | none => simp
  | some p =>
    obtain ⟨n, q⟩ := p
    dsimp only
    cases hl : dictLookup acc n with
    | some it =>
      by_cases hn : n = name
      · subst hn
        rw [qtyOf_dictInsert_self, if_pos rfl]
        simp [qtyOf, hl]
      · rw [qtyOf_dictInsert_ne acc n name _ (fun hh => hn hh.symm), if_neg hn, add_zero]
    | none =>
      by_cases hn : n = name
      · subst hn
        rw [qtyOf_append_single_self acc n _ hl, if_pos rfl]
        simp [qtyOf, hl]
      · rw [qtyOf_append_single_ne acc n name _ (fun hh => hn hh.symm), if_neg hn, add_zero]

theorem qtyOf_parse_fold (lines : List (List Char)) (acc : List (String × Item)) (name : String) :
    qtyOf (lines.foldl parseStep acc) name = qtyOf acc name + (lines.map (lineContrib name)).sum := by
  induction lines generalizing acc with
  | nil => simp
  | cons l ls ih =>
    simp only [List.foldl_cons, List.map_cons, List.sum_cons]
    rw [ih (parseStep acc l), qtyOf_parseStep]
    ring

/-- Names and quantities a snapshot parse sums: the quantity stored for a
name is exactly the sum of the per-line contributions for that name. -/
theorem qtyOf_from_clipboard (content : String) (name : String) :
    qtyOf (from_clipboard_items content) name =
      ((splitOnChar '\n' (pyStrip content.data)).map (lineContrib name)).sum := by
  unfold from_clipboard_items
  rw [qtyOf_parse_fold]
  simp [qtyOf, dictLookup]

theorem stripped_name_fixed (p0 : List Char) :
    String.mk (pyStrip (String.mk (pyStrip p0)).data) = String.mk (pyStrip p0) := by
  rw [show (String.mk (pyStrip p0)).data = pyStrip p0 from rfl, pyStrip_pyStrip]

theorem lineQty_props {l : List Char} {n : String} {q : Int} (h : lineQty l = some (n, q)) :
    n ≠ "" ∧ String.mk (pyStrip n.data) = n ∧ 0 ≤ q := by
  unfold lineQty at h
  rcases hp : splitOnChar '\t' (pyStrip l) with _ | ⟨p0, rest⟩
  · rw [hp] at h
    simp at h
  · rw [hp] at h
    dsimp only at h
    by_cases hn : String.mk (pyStrip p0) = ""
    · rw [if_pos hn] at h
      simp at h
    · rw [if_neg hn] at h
      rcases rest with _ | ⟨p1, rest2⟩
      · simp only [Option.some.injEq, Prod.mk.injEq] at h
        obtain ⟨h1, h2⟩ := h
        subst h1
        refine ⟨hn, stripped_name_fixed p0, by omega⟩
      · rcases rest2 with _ | ⟨p2, rest3⟩
        · dsimp only at h
          by_cases hd : pyIsDigit p1
          · rw [if_pos hd] at h
            simp only [Option.some.injEq, Prod.mk.injEq] at h
            obtain ⟨h1, h2⟩ := h
            subst h1
            refine ⟨hn, stripped_name_fixed p0, ?_⟩
            rw [← h2]
            exact_mod_cast Int.ofNat_nonneg _
          · rw [if_neg hd] at h
            simp at h
        · simp at h

/-- Invariant of every entry a snapshot parse stores: the name field of the value
equals the dict key, that name is a non-empty already-stripped string, and
the quantity is non-negative. -/
def ParseInv (k : String) (it : Item) : Prop :=
  it.name = k ∧ String.mk (pyStrip it.name.data) = it.name ∧ it.name ≠ "" ∧ 0 ≤ it.quantity

theorem parseStep_inv (acc : List (String × Item)) (l : List Char)
    (hacc : ∀ k it, dictLookup acc k = some it → ParseInv k it) :
    ∀ k it, dictLookup (parseStep acc l) k = some it → ParseInv k it := by
  intro k it h
  unfold parseStep at h
  rcases hq : lineQty l with _ | ⟨n, q2⟩
  · rw [hq] at h
    exact hacc k it h
  · rw [hq] at h
    dsimp only at h
    obtain ⟨hne, hstrip, hq2⟩ := lineQty_props hq
    rcases hl : dictLookup acc n with _ | it0
    · rw [hl] at h
      rw [dictLookup_append] at h
      rcases hak : dictLookup acc k with _ | it1
      · rw [hak] at h
        dsimp only at h
        have hform : dictLookup [(n, (⟨n, q2⟩ : Item))] k =
            if n = k then some (⟨n, q2⟩ : Item) else none := by
          simp [dictLookup]
        rw [hform] at h
        by_cases hk : n = k
        · rw [if_pos hk] at h
          simp only [Option.some.injEq] at h
          subst h
          exact ⟨hk, by simpa using hstrip, hne, hq2⟩
        · rw [if_neg hk] at h
          simp at h
      · rw [hak] at h
        dsimp only at h
        simp only [Option.some.injEq] at h
        subst h
        exact hacc k it1 hak
    · rw [hl] at h
      by_cases hk : k = n
      · subst hk
        rw [dictLookup_dictInsert_self] at h
        simp only [Option.some.injEq] at h
        subst h
        obtain ⟨hname0, hstrip0, hne0, hnn0⟩ := hacc k it0 hl
        exact ⟨hname0, by simpa [hname0] using hstrip0, by simpa [hname0] using hne0,
          by show 0 ≤ it0.quantity + q2; omega⟩
      · rw [dictLookup_dictInsert_ne acc n k _ hk] at h
        exact hacc k it h

theorem parse_fold_inv (lines : List (List Char)) (acc : List (String × Item))
    (hacc : ∀ k it, dictLookup acc k = some it → ParseInv k it) :
    ∀ k it, dictLookup (lines.foldl parseStep acc) k = some it → ParseInv k it := by
  induction lines generalizing acc with
  | nil => exact hacc
  | cons l ls ih =>
    simp only [List.foldl_cons]
    exact ih (parseStep acc l) (parseStep_inv acc l hacc)

theorem from_clipboard_inv (content : String) :
    ∀ k it, dictLookup (from_clipboard_items content) k = some it → ParseInv k it := by
  unfold from_clipboard_items
  exact parse_fold_inv _ [] (by intro k it h; simp [dictLookup] at h)

theorem diffPositive_fold (base : List (String × Item)) (iter : List (String × Item))
    (n : String) (hnd : (iter.map Prod.fst).Nodup) :
    ∀ acc : List (String × Int),
      dictLookup (iter.foldl (diffStep base) acc) n =
        match dictLookup iter n with
        | some it => if qtyD base n < it.quantity then some (it.quantity - qtyD base n)
                     else dictLookup acc n
        | none => dictLookup acc n := by
  induction iter with
  | nil => intro acc; rfl
  | cons p rest ih =>
    intro acc
    obtain ⟨m, itm⟩ := p
    simp only [List.map_cons, List.nodup_cons] at hnd
    simp only [List.foldl_cons]
    rw [ih hnd.2]
    by_cases hnm : m = n
    · subst hnm
      have hrest : dictLookup rest m = none :=
        dictLookup_eq_none_of_not_mem_keys hnd.1
      have hcons : dictLookup ((m, itm) :: rest) m = some itm := by simp [dictLookup]
      rw [hrest, hcons]
      dsimp only
      unfold diffStep
      dsimp only
      by_cases hlt : qtyD base m < itm.quantity
      · rw [if_pos hlt, if_pos hlt, dictLookup_dictInsert_self]
      · rw [if_neg hlt, if_neg hlt]
    · have hlk : dictLookup ((m, itm) :: rest) n = dictLookup rest n := by
        simp [dictLookup, hnm]
      rw [hlk]
      have hacc : dictLookup (diffStep base acc (m, itm)) n = dictLookup acc n := by
        unfold diffStep
        by_cases hlt : qtyD base m < itm.quantity
        · rw [if_pos hlt]
          exact dictLookup_dictInsert_ne acc m n _ (fun hh => hnm hh.symm)
        · rw [if_neg hlt]
      cases dictLookup rest n with
      | some it2 => dsimp only; rw [hacc]
      | none => dsimp only; rw [hacc]

theorem qtyD_nonneg (d : List (String × Item)) (n : String)
    (hnn : ∀ p ∈ d, 0 ≤ p.2.quantity) : 0 ≤ qtyD d n := by
  unfold qtyD
  cases hl : dictLookup d n with
  | some it => exact hnn (n, it) (dictLookup_mem hl)
  | none => simp

/-- Lookup characterization of the positive-delta dict: with pairwise
distinct keys on the iterated snapshot and non-negative base quantities, a
name maps to the positive difference of its iterated quantity over its base
quantity exactly when that difference is positive. -/
theorem diffPositive_char (iter base : List (String × Item))
    (hnd : (iter.map Prod.fst).Nodup) (hbase : ∀ p ∈ base, 0 ≤ p.2.quantity) (n : String) :
    dictLookup (diffPositive iter base) n =
      if qtyD base n < qtyD iter n then some (qtyD iter n - qtyD base n) else none := by
  unfold diffPositive
  rw [diffPositive_fold base iter n hnd]
  cases hl : dictLookup iter n with
  | some it =>
    have hq : qtyD iter n = it.quantity := by simp [qtyD, hl]
    rw [hq]
    dsimp only
    by_cases hlt : qtyD base n < it.quantity
    · rw [if_pos hlt, if_pos hlt]
    · rw [if_neg hlt, if_neg hlt]
      rfl
  | none =>
    have hq : qtyD iter n = 0 := by simp [qtyD, hl]
    rw [hq]
    have hb := qtyD_nonneg base n hbase
    rw [if_neg (by omega)]
    rfl

/-- One-directional version not needing any non-negativity: a recorded
delta means the iterated quantity strictly exceeded the base quantity. -/
theorem diffPositive_some (iter base : List (String × Item))
    (hnd : (iter.map Prod.fst).Nodup) (n : String) (v : Int)
    (h : dictLookup (diffPositive iter base) n = some v) : qtyD base n < qtyD iter n := by
  unfold diffPositive at h
  rw [diffPositive_fold base iter n hnd] at h
  cases hl : dictLookup iter n with
  | some it =>
    rw [hl] at h
    dsimp only at h
    by_cases hlt : qtyD base n < it.quantity
    · have hq : qtyD iter n = it.quantity := by simp [qtyD, hl]
      omega
    · rw [if_neg hlt] at h
      simp [dictLookup] at h
  | none =>
    rw [hl] at h
    simp [dictLookup] at h

/-- Python float as the price code can observe it: a finite rational, the
NaN value, or one of the two infinities. -/
inductive FVal where
  | finite (q : Rat)
  | nan
  | inf
  | ninf
deriving DecidableEq

/-- Value obtained from data.get on the decoded JSON response, classified
by how the float builtin treats it: absent (None), convertible to a float,
or not convertible (TypeError or ValueError). -/
inductive RawVal where
  | null
  | num (v : FVal)
  | nonNum
deriving DecidableEq

/-- Python float(value): fails on None and on non-convertible values,
otherwise yields the float (the string nan converts to the NaN value). -/
def pyFloatConv : RawVal → Option FVal
  | .null => none
  | .nonNum => none
  | .num v => some v

/-- The helper named with a leading underscore in price_checker.py that
converts a value to a finite float: None becomes zero, a failed conversion
becomes zero, NaN and the infinities become zero, and any other float is
returned unchanged. -/
def to_finite_float (value : RawVal) : FVal :=
  match value with
  | .null => .finite 0
  | v =>
    match pyFloatConv v with
    | none => .finite 0
    | some f =>
      match f with
      | .nan => .finite 0
      | .inf => .finite 0
      | .ninf => .finite 0
      | .finite q => .finite q

/-- Outcome of the try block in fetch_price_from_api, as seen by the
except clause: a transport error (including the 10 second timeout), a
non-success HTTP status raised by raise_for_status, an unparseable JSON
payload, or a decoded response carrying the two price fields. -/
inductive FetchOutcome where
  | transportError
  | timeout
  | httpError
  | badPayload
  | ok (minSell maxBuy : RawVal)
deriving DecidableEq

/-- fetch_price_from_api: any raised error is swallowed and reported as
None, a decoded response has both fields sanitized. -/
def fetch_price_from_api : FetchOutcome → Option (FVal × FVal)
  | .ok ms mb => some (to_finite_float ms, to_finite_float mb)
  | _ => none

/-- CACHE_DURATION_SECONDS = 4 * 60 * 60 from price_checker.py. -/
def CACHE_DURATION_SECONDS : Int := 4 * 60 * 60

/-- get_cached_price: a stored row is returned while its age is strictly
below the TTL, and ignored (a miss) otherwise; an absent row is a miss. -/
def get_cached_price (cache : Nat → Option (FVal × FVal × Int)) (now : Rat) (type_id : Nat) :
    Option (FVal × FVal) :=
  match cache type_id with
  | none => none
  | some (ms, mb, lu) =>
    if now - (lu : Rat) < (CACHE_DURATION_SECONDS : Rat) then some (ms, mb) else none

/-- Environment of one get_prices_for_items call: the SDE name-to-id
lookup, the cache table, the clock, and the per-identifier outcome of the
remote fetch. -/
structure PriceEnv where
  sde : String → Option Nat
  cache : Nat → Option (FVal × FVal × Int)
  now : Rat
  fetchOut : Nat → FetchOutcome

/-- One entry of the dict get_prices_for_items returns. -/
structure PriceResult where
  min_sell : FVal
  max_buy : FVal
  source : String
  type_id : Nat
deriving DecidableEq

/-- Observable effect of the pipeline, tagged with the input name on whose
behalf it happened. -/
inductive Ev where
  | sdeRead (name : String)
  | cacheRead (name : String) (tid : Nat)
  | cacheWrite (name : String) (tid : Nat)
  | fetchCall (name : String) (tid : Nat)
deriving DecidableEq

/-- Name an effect is attributed to. -/
def evName : Ev → String
  | .sdeRead n => n
  | .cacheRead n _ => n
  | .cacheWrite n _ => n
  | .fetchCall n _ => n

/-- Destination of one name in the first loop of get_prices_for_items:
either a finished result entry or a pending fetch for a type id. -/
inductive Classified where
  | res (r : PriceResult)
  | needFetch (tid : Nat)
deriving DecidableEq

/-- Body of the first loop of get_prices_for_items for one name, paired
with the effects it performs: a blueprint name resolves its id for
bookkeeping only and is skipped; an unresolved (or zero) id is not_found;
otherwise the cache is consulted and a hit is returned as stored while a
miss joins the fetch batch. -/
def processName (env : PriceEnv) (name : String) : Classified × List Ev :=
  if containsSeq ("Blueprint".data) name.data then
    (.res ⟨.finite 0, .finite 0, "blueprint_skip", (env.sde name).getD 0⟩, [.sdeRead name])
  else
    match env.sde name with
    | none => (.res ⟨.finite 0, .finite 0, "not_found", 0⟩, [.sdeRead name])
    | some tid =>
      if tid = 0 then (.res ⟨.finite 0, .finite 0, "not_found", 0⟩, [.sdeRead name])
      else
        match get_cached_price env.cache env.now tid with
        | some (ms, mb) => (.res ⟨ms, mb, "cache", tid⟩, [.sdeRead name, .cacheRead name tid])
        | none => (.needFetch tid, [.sdeRead name, .cacheRead name tid])

/-- First-loop accumulator step: route the classified name into the result
dict or the fetch dict and append the effects. -/
def p1step (env : PriceEnv)
    (acc : List (String × PriceResult) × List (String × Nat) × List Ev) (name : String) :
    List (String × PriceResult) × List (String × Nat) × List Ev :=
  match processName env name with
  | (.res r, evs) => (dictInsert acc.1 name r, acc.2.1, acc.2.2 ++ evs)
  | (.needFetch tid, evs) => (acc.1, dictInsert acc.2.1 name tid, acc.2.2 ++ evs)

/-- First loop of get_prices_for_items over all input names. -/
def phase1 (env : PriceEnv) (names : List String) :
    List (String × PriceResult) × List (String × Nat) × List Ev :=
  names.foldl (p1step env) ([], [], [])

/-- The items_to_fetch_api dict after the first loop. -/
def items_to_fetch (env : PriceEnv) (names : List String) : List (String × Nat) :=
  (phase1 env names).2.1

/-- Second-loop body for one pending (name, type id) pair: a successful
fetch is recorded with source api and written back to the cache, a failed
one becomes a zero-valued api_fail entry. -/
def fetchEntry (env : PriceEnv) (p : String × Nat) : PriceResult × List Ev :=
  match fetch_price_from_api (env.fetchOut p.2) with
  | some (ms, mb) => (⟨ms, mb, "api", p.2⟩, [.fetchCall p.1 p.2, .cacheWrite p.1 p.2])
  | none => (⟨.finite 0, .finite 0, "api_fail", p.2⟩, [.fetchCall p.1 p.2])

/-- Concatenated effects of a list of steps. -/
def traceOf {α : Type} (f : α → List Ev) : List α → List Ev
  | [] => []
  | a :: l => f a ++ traceOf f l

/-- get_prices_for_items: run the first loop, then resolve every pending
fetch of the batch and merge its entries into the result dict.  The
function is total: no outcome of any fetch can fail the call. -/
def get_prices_for_items (env : PriceEnv) (names : List String) :
    List (String × PriceResult) × List Ev :=
  let s := phase1 env names
  (s.2.1.foldl (fun r p => dictInsert r p.1 (fetchEntry env p).1) s.1,
   s.2.2 ++ traceOf (fun p => (fetchEntry env p).2) s.2.1)

/-- Result entry a name ends up with, as determined by its own
classification and, for a cache miss, its own fetch outcome. -/
def finalRes (env : PriceEnv) (n : String) : PriceResult :=
  match (processName env n).1 with
  | .res r => r
  | .needFetch tid => (fetchEntry env (n, tid)).1

/-- Is a modelled float finite? -/
def isFiniteFV : FVal → Bool
  | .finite _ => true
  | _ => false

/-- Is a modelled float a finite non-negative value? -/
def isNonNegFV : FVal → Bool
  | .finite q => decide (0 ≤ q)
  | _ => false

theorem p1fold_res_lookup (env : PriceEnv) (names : List String) (n : String) :
    ∀ acc : List (String × PriceResult) × List (String × Nat) × List Ev,
      dictLookup (names.foldl (p1step env) acc).1 n =
        if n ∈ names then
          match (processName env n).1 with
          | .res r => some r
          | .needFetch _ => dictLookup acc.1 n
        else dictLookup acc.1 n := by
  induction names with
  | nil => intro acc; simp
  | cons m rest ih =>
    intro acc
    simp only [List.foldl_cons]
    rw [ih (p1step env acc m)]
    by_cases hm : n = m
    · subst hm
      rcases hpm : processName env n with ⟨clm, evsm⟩
      rw [if_pos (List.mem_cons_self n rest)]
      cases clm with
      | res r =>
        have hstep : (p1step env acc n).1 = dictInsert acc.1 n r := by
          simp [p1step, hpm]
        dsimp only
        by_cases hmem : n ∈ rest
        · rw [if_pos hmem]
        · rw [if_neg hmem, hstep, dictLookup_dictInsert_self]
      | needFetch t =>
        have hstep : (p1step env acc n).1 = acc.1 := by
          simp [p1step, hpm]
        dsimp only
        rw [ite_self, hstep]
    · have hstep : dictLookup (p1step env acc m).1 n = dictLookup acc.1 n := by
        rcases hpm : processName env m with ⟨clm, evsm⟩
        cases clm with
        | res r =>
          have hs : (p1step env acc m).1 = dictInsert acc.1 m r := by simp [p1step, hpm]
          rw [hs]
          exact dictLookup_dictInsert_ne acc.1 m n r hm
        | needFetch t =>
          have hs : (p1step env acc m).1 = acc.1 := by simp [p1step, hpm]
          rw [hs]
      rw [hstep]
      by_cases hmem : n ∈ rest
      · rw [if_pos hmem, if_pos (List.mem_cons_of_mem m hmem)]
      · rw [if_neg hmem, if_neg (by simp [List.mem_cons, hm, hmem])]

theorem p1fold_tf_lookup (env : PriceEnv) (names : List String) (n : String) :
    ∀ acc : List (String × PriceResult) × List (String × Nat) × List Ev,
      dictLookup (names.foldl (p1step env) acc).2.1 n =
        if n ∈ names then
          match (processName env n).1 with
          | .res _ => dictLookup acc.2.1 n
          | .needFetch t => some t
        else dictLookup acc.2.1 n := by
  induction names with
  | nil => intro acc; simp
  | cons m rest ih =>
    intro acc
    simp only [List.foldl_cons]
    rw [ih (p1step env acc m)]
    by_cases hm : n = m
    · subst hm
      rcases hpm : processName env n with ⟨clm, evsm⟩
      rw [if_pos (List.mem_cons_self n rest)]
      cases clm with
      | res r =>
        have hstep : (p1step env acc n).2.1 = acc.2.1 := by
          simp [p1step, hpm]
        dsimp only
        rw [ite_self, hstep]
      | needFetch t =>
        have hstep : (p1step env acc n).2.1 = dictInsert acc.2.1 n t := by
          simp [p1step, hpm]
        dsimp only
        by_cases hmem : n ∈ rest
        · rw [if_pos hmem]
        · rw [if_neg hmem, hstep, dictLookup_dictInsert_self]
    · have hstep : dictLookup (p1step env acc m).2.1 n = dictLookup acc.2.1 n := by
        rcases hpm : processName env m with ⟨clm, evsm⟩
        cases clm with
        | res r =>
          have hs : (p1step env acc m).2.1 = acc.2.1 := by simp [p1step, hpm]
          rw [hs]
        | needFetch t =>
          have hs : (p1step env acc m).2.1 = dictInsert acc.2.1 m t := by simp [p1step, hpm]
          rw [hs]
          exact dictLookup_dictInsert_ne acc.2.1 m n t hm
      rw [hstep]
      by_cases hmem : n ∈ rest
      · rw [if_pos hmem, if_pos (List.mem_cons_of_mem m hmem)]
      · rw [if_neg hmem, if_neg (by simp [List.mem_cons, hm, hmem])]

theorem p1fold_wf (env : PriceEnv) (names : List String) :
    ∀ acc : List (String × PriceResult) × List (String × Nat) × List Ev,
      DictWF acc.1 → DictWF acc.2.1 →
      DictWF (names.foldl (p1step env) acc).1 ∧ DictWF (names.foldl (p1step env) acc).2.1 := by
  induction names with
  | nil => intro acc h1 h2; exact ⟨h1, h2⟩
  | cons m rest ih =>
    intro acc h1 h2
    simp only [List.foldl_cons]
    rcases hpm : processName env m with ⟨clm, evsm⟩
    cases clm with
    | res r =>
      have hs : p1step env acc m = (dictInsert acc.1 m r, acc.2.1, acc.2.2 ++ evsm) := by
        simp [p1step, hpm]
      rw [hs]
      exact ih _ (DictWF_dictInsert m r h1) h2
    | needFetch t =>
      have hs : p1step env acc m = (acc.1, dictInsert acc.2.1 m t, acc.2.2 ++ evsm) := by
        simp [p1step, hpm]
      rw [hs]
      exact ih _ h1 (DictWF_dictInsert m t h2)

theorem p1fold_tf_entries (env : PriceEnv) (names : List String) :
    ∀ acc : List (String × PriceResult) × List (String × Nat) × List Ev,
      (∀ p ∈ acc.2.1, (processName env p.1).1 = Classified.needFetch p.2) →
      ∀ p ∈ (names.foldl (p1step env) acc).2.1, (processName env p.1).1 = Classified.needFetch p.2 := by
  induction names with
  | nil => intro acc h; exact h
  | cons m rest ih =>
    intro acc h
    simp only [List.foldl_cons]
    rcases hpm : processName env m with ⟨clm, evsm⟩
    cases clm with
    | res r =>
      have hs : p1step env acc m = (dictInsert acc.1 m r, acc.2.1, acc.2.2 ++ evsm) := by
        simp [p1step, hpm]
      rw [hs]
      exact ih _ h
    | needFetch t =>
      have hs : p1step env acc m = (acc.1, dictInsert acc.2.1 m t, acc.2.2 ++ evsm) := by
        simp [p1step, hpm]
      rw [hs]
      refine ih _ ?_
      intro p hp
      rcases mem_dictInsert hp with hmem | heq
      · exact h p hmem
      · subst heq
        simp [hpm]

theorem p1fold_trace (env : PriceEnv) (names : List String) :
    ∀ acc : List (String × PriceResult) × List (String × Nat) × List Ev,
      (names.foldl (p1step env) acc).2.2 =
        acc.2.2 ++ traceOf (fun m => (processName env m).2) names := by
  induction names with
  | nil => intro acc; simp [traceOf]
  | cons m rest ih =>
    intro acc
    simp only [List.foldl_cons]
    rw [ih (p1step env acc m)]
    have hs : (p1step env acc m).2.2 = acc.2.2 ++ (processName env m).2 := by
      rcases hpm : processName env m with ⟨clm, evsm⟩
      cases clm with
      | res r => simp [p1step, hpm]
      | needFetch t => simp [p1step, hpm]
    rw [hs, traceOf, List.append_assoc]

theorem p2fold_lookup (env : PriceEnv) (L : List (String × Nat)) (n : String)
    (hnd : (L.map Prod.fst).Nodup) :
    ∀ r0 : List (String × PriceResult),
      dictLookup (L.foldl (fun r p => dictInsert r p.1 (fetchEntry env p).1) r0) n =
        match dictLookup L n with
        | some t => some (fetchEntry env (n, t)).1
        | none => dictLookup r0 n := by
  induction L with
  | nil => intro r0; rfl
  | cons p rest ih =>
    intro r0
    obtain ⟨m, t⟩ := p
    simp only [List.map_cons, List.nodup_cons] at hnd
    simp only [List.foldl_cons]
    rw [ih hnd.2]
    by_cases hm : m = n
    · subst hm
      have hrest : dictLookup rest m = none :=
        dictLookup_eq_none_of_not_mem_keys hnd.1
      have hcons : dictLookup ((m, t) :: rest) m = some t := by simp [dictLookup]
      rw [hrest, hcons]
      dsimp only
      rw [dictLookup_dictInsert_self]
    · have hcons : dictLookup ((m, t) :: rest) n = dictLookup rest n := by
        simp [dictLookup, hm]
      rw [hcons]
      have hne : dictLookup (dictInsert r0 m (fetchEntry env (m, t)).1) n = dictLookup r0 n :=
        dictLookup_dictInsert_ne r0 m n _ (fun hh => hm hh.symm)
      cases dictLookup rest n with
      | some t2 => rfl
      | none => dsimp only; rw [hne]

/-- Central characterization of the batch pipeline: the dict returned by
get_prices_for_items holds, for exactly the input names, the entry
determined by the own classification of that name and, on a cache miss, its own
fetch outcome. -/
theorem get_prices_lookup (env : PriceEnv) (names : List String) (n : String) :
    dictLookup (get_prices_for_items env names).1 n =
      if n ∈ names then some (finalRes env n) else none := by
  have hwf := p1fold_wf env names ([], [], []) (by simp [DictWF]) (by simp [DictWF])
  have hres := p1fold_res_lookup env names n ([], [], [])
  have htf := p1fold_tf_lookup env names n ([], [], [])
  show dictLookup ((phase1 env names).2.1.foldl
      (fun r p => dictInsert r p.1 (fetchEntry env p).1) (phase1 env names).1) n = _
  rw [p2fold_lookup env (phase1 env names).2.1 n hwf.2]
  unfold phase1 at hres htf ⊢
  by_cases hmem : n ∈ names
  · rw [if_pos hmem] at hres htf
    rw [if_pos hmem]
    unfold finalRes
    cases hcl : (processName env n).1 with
    | res r =>
      rw [hcl] at hres htf
      dsimp only at hres htf
      rw [htf]
      dsimp only
      rw [hres]
      simp [dictLookup]
    | needFetch t =>
      rw [hcl] at hres htf
      dsimp only at hres htf
      rw [htf]
  · rw [if_neg hmem] at hres htf
    rw [if_neg hmem]
    rw [htf]
    dsimp only
    rw [hres]
    simp [dictLookup]

theorem get_prices_trace (env : PriceEnv) (names : List String) :
    (get_prices_for_items env names).2 =
      traceOf (fun m => (processName env m).2) names ++
      traceOf (fun p => (fetchEntry env p).2) (items_to_fetch env names) := by
  show (phase1 env names).2.2 ++ _ = _
  unfold items_to_fetch
  unfold phase1
  rw [p1fold_trace env names ([], [], [])]
  rfl

theorem traceOf_mem {α : Type} (f : α → List Ev) (l : List α) (ev : Ev)
    (h : ev ∈ traceOf f l) : ∃ a ∈ l, ev ∈ f a := by
  induction l with
  | nil => simp [traceOf] at h
  | cons a rest ih =>
    rw [traceOf, List.mem_append] at h
    rcases h with h | h
    · exact ⟨a, List.mem_cons_self a rest, h⟩
    · obtain ⟨b, hb, hev⟩ := ih h
      exact ⟨b, List.mem_cons_of_mem a hb, hev⟩

theorem processName_evName (env : PriceEnv) (m : String) :
    ∀ ev ∈ (processName env m).2, evName ev = m := by
  intro ev hev
  unfold processName at hev
  by_cases hbp : containsSeq ("Blueprint".data) m.data
  · rw [if_pos hbp] at hev
    simp at hev
    simp [hev, evName]
  · rw [if_neg hbp] at hev
    cases hs : env.sde m with
    | none =>
      rw [hs] at hev
      simp at hev
      simp [hev, evName]
    | some tid =>
      rw [hs] at hev
      dsimp only at hev
      by_cases ht : tid = 0
      · rw [if_pos ht] at hev
        simp at hev
        simp [hev, evName]
      · rw [if_neg ht] at hev
        cases hc : get_cached_price env.cache env.now tid with
        | none =>
          rw [hc] at hev
          simp at hev
          rcases hev with hev | hev <;> simp [hev, evName]
        | some pr =>
          obtain ⟨ms, mb⟩ := pr
          rw [hc] at hev
          simp at hev
          rcases hev with hev | hev <;> simp [hev, evName]

theorem processName_blueprint (env : PriceEnv) (m : String)
    (hbp : containsSeq ("Blueprint".data) m.data = true) :
    processName env m =
      (.res ⟨.finite 0, .finite 0, "blueprint_skip", (env.sde m).getD 0⟩, [.sdeRead m]) := by
  unfold processName
  rw [if_pos hbp]

theorem processName_needFetch_not_blueprint (env : PriceEnv) (m : String) (t : Nat)
    (h : (processName env m).1 = Classified.needFetch t) :
    containsSeq ("Blueprint".data) m.data = false := by
  by_cases hbp : containsSeq ("Blueprint".data) m.data
  · rw [processName_blueprint env m hbp] at h
    simp at h
  · simpa using hbp

theorem fetchEntry_evName (env : PriceEnv) (p : String × Nat) :
    ∀ ev ∈ (fetchEntry env p).2, evName ev = p.1 := by
  intro ev hev
  unfold fetchEntry at hev
  cases hf : fetch_price_from_api (env.fetchOut p.2) with
  | none =>
    rw [hf] at hev
    simp at hev
    simp [hev, evName]
  | some pr =>
    obtain ⟨ms, mb⟩ := pr
    rw [hf] at hev
    simp at hev
    rcases hev with hev | hev <;> simp [hev, evName]

/-- C1: for every session with at least two snapshots, get_looted_items
records exactly the names whose final-snapshot quantity exceeds their
initial-snapshot quantity (absence counting as zero) with the positive
difference as value, and get_consumed_items symmetrically records exactly
the names whose initial quantity exceeds their final quantity; a name with
unchanged quantity appears in neither dict. -/
theorem c1_diff_records_positive_deltas (run : LootRun)
    (h2 : 2 ≤ run.states.length)
    (hwfI : DictWF (run.states.headD dfltState).items)
    (hwfF : DictWF (run.states.getLastD dfltState).items)
    (hnnI : ∀ p ∈ (run.states.headD dfltState).items, 0 ≤ p.2.quantity)
    (hnnF : ∀ p ∈ (run.states.getLastD dfltState).items, 0 ≤ p.2.quantity) :
    (∀ name, dictLookup run.get_looted_items name =
      if qtyD (run.states.headD dfltState).items name <
          qtyD (run.states.getLastD dfltState).items name
      then some (qtyD (run.states.getLastD dfltState).items name -
          qtyD (run.states.headD dfltState).items name)
      else none)
    ∧ (∀ name, dictLookup run.get_consumed_items name =
      if qtyD (run.states.getLastD dfltState).items name <
          qtyD (run.states.headD dfltState).items name
      then some (qtyD (run.states.headD dfltState).items name -
          qtyD (run.states.getLastD dfltState).items name)
      else none) := by
  have hguard : ¬ run.states.length < 2 := by omega
  constructor
  · intro name
    unfold LootRun.get_looted_items
    rw [if_neg hguard]
    exact diffPositive_char _ _ hwfF hnnI name
  · intro name
    unfold LootRun.get_consumed_items
    rw [if_neg hguard]
    exact diffPositive_char _ _ hwfI hnnF name

/-- Session of the end-to-end scenario: initial snapshot A:10, B:5 and
final snapshot A:12, C:3. -/
def runEx : LootRun :=
  { start_time := 0,
    states := [⟨0, [("A", ⟨"A", 10⟩), ("B", ⟨"B", 5⟩)]⟩,
               ⟨1, [("A", ⟨"A", 12⟩), ("C", ⟨"C", 3⟩)]⟩] }

/-- C1 witness: the end-to-end scenario evaluates as the claim states. -/
theorem c1_diff_records_positive_deltas_witness :
    (2 ≤ runEx.states.length)
    ∧ dictLookup runEx.get_looted_items "A" = some 2
    ∧ dictLookup runEx.get_looted_items "C" = some 3
    ∧ dictLookup runEx.get_looted_items "B" = none
    ∧ dictLookup runEx.get_consumed_items "B" = some 5
    ∧ dictLookup runEx.get_consumed_items "A" = none
    ∧ dictLookup runEx.get_consumed_items "C" = none := by
  have h := c1_diff_records_positive_deltas runEx (by decide) (by decide) (by decide)
    (by decide) (by decide)
  refine ⟨by decide, ?_, ?_, ?_, ?_, ?_, ?_⟩
  · rw [h.1 "A"]; decide
  · rw [h.1 "C"]; decide
  · rw [h.1 "B"]; decide
  · rw [h.2 "B"]; decide
  · rw [h.2 "A"]; decide
  · rw [h.2 "C"]; decide

/-- C2: snapshot parsing sums the quantities of lines repeating the same
name instead of keeping only one of them; the quantity stored for a name is
the sum of the per-line contributions for it, and parsing the two lines
Ore tab 5 and Ore tab 3 equals parsing the single line Ore tab 8, mapping
Ore to 8. -/
theorem c2_duplicate_lines_sum :
    (∀ content name, qtyOf (from_clipboard_items content) name =
      ((splitOnChar '\n' (pyStrip content.data)).map (lineContrib name)).sum)
    ∧ from_clipboard_items "Ore\t5\nOre\t3" = from_clipboard_items "Ore\t8"
    ∧ dictLookup (from_clipboard_items "Ore\t5\nOre\t3") "Ore" = some ⟨"Ore", 8⟩ :=
  ⟨qtyOf_from_clipboard, by decide, by decide⟩

/-- C7: a session with fewer than two snapshots diffs to two empty dicts. -/
theorem c7_short_session_empty_diff (run : LootRun) (h : run.states.length < 2) :
    run.get_looted_items = [] ∧ run.get_consumed_items = [] := by
  unfold LootRun.get_looted_items LootRun.get_consumed_items
  rw [if_pos h, if_pos h]
  exact ⟨rfl, rfl⟩

/-- Session with a single snapshot, for the C7 witness. -/
def runSingle : LootRun := { start_time := 0, states := [⟨0, [("A", ⟨"A", 10⟩)]⟩] }

/-- C7 witness: the one-snapshot session yields two empty dicts. -/
theorem c7_short_session_empty_diff_witness :
    runSingle.states.length < 2
    ∧ runSingle.get_looted_items = [] ∧ runSingle.get_consumed_items = [] :=
  ⟨by decide, c7_short_session_empty_diff runSingle (by decide)⟩

/-- C9: under the dict key-uniqueness invariant, the looted and consumed
dicts of one snapshot pair never both carry a nonzero value for the same
name: at least one of the two recorded deltas is zero for every name. -/
theorem c9_loot_consume_disjoint (run : LootRun)
    (hwfI : DictWF (run.states.headD dfltState).items)
    (hwfF : DictWF (run.states.getLastD dfltState).items) (name : String) :
    deltaQty run.get_looted_items name = 0 ∨ deltaQty run.get_consumed_items name = 0 := by
  by_cases hguard : run.states.length < 2
  · left
    unfold deltaQty LootRun.get_looted_items
    rw [if_pos hguard]
    rfl
  · rcases hl : dictLookup run.get_looted_items name with _ | v
    · left
      unfold deltaQty
      rw [hl]
      rfl
    · rcases hc : dictLookup run.get_consumed_items name with _ | w
      · right
        unfold deltaQty
        rw [hc]
        rfl
      · exfalso
        unfold LootRun.get_looted_items at hl
        unfold LootRun.get_consumed_items at hc
        rw [if_neg hguard] at hl hc
        have h1 := diffPositive_some _ _ hwfF name v hl
        have h2 := diffPositive_some _ _ hwfI name w hc
        omega

/-- C9 witness: in the end-to-end scenario the name A has a zero delta on
at least one side. -/
theorem c9_loot_consume_disjoint_witness :
    DictWF (runEx.states.headD dfltState).items
    ∧ DictWF (runEx.states.getLastD dfltState).items
    ∧ (deltaQty runEx.get_looted_items "A" = 0 ∨ deltaQty runEx.get_consumed_items "A" = 0) :=
  ⟨by decide, by decide, c9_loot_consume_disjoint runEx (by decide) (by decide) "A"⟩

/-- C10: every entry a snapshot parse stores has its dict key equal to the
stored name field, a name that is non-empty after stripping, and a
non-negative quantity. -/
theorem c10_parse_entry_invariant (content : String) (k : String) (it : Item)
    (h : dictLookup (from_clipboard_items content) k = some it) :
    it.name = k ∧ String.mk (pyStrip it.name.data) ≠ "" ∧ 0 ≤ it.quantity := by
  obtain ⟨h1, h2, h3, h4⟩ := from_clipboard_inv content k it h
  exact ⟨h1, by rw [h2]; exact h3, h4⟩

/-- C10 witness: the entry parsed from the single line Ore tab 5. -/
theorem c10_parse_entry_invariant_witness :
    dictLookup (from_clipboard_items "Ore\t5") "Ore" = some (⟨"Ore", 5⟩ : Item)
    ∧ ((⟨"Ore", 5⟩ : Item).name = "Ore"
      ∧ String.mk (pyStrip (⟨"Ore", 5⟩ : Item).name.data) ≠ ""
      ∧ 0 ≤ (⟨"Ore", 5⟩ : Item).quantity) :=
  ⟨by decide, c10_parse_entry_invariant "Ore\t5" "Ore" ⟨"Ore", 5⟩ (by decide)⟩

theorem to_finite_float_finite (v : RawVal) : ∃ q, to_finite_float v = FVal.finite q := by
  cases v with
  | null => exact ⟨0, rfl⟩
  | nonNum => exact ⟨0, rfl⟩
  | num f =>
    cases f with
    | finite q => exact ⟨q, rfl⟩
    | nan => exact ⟨0, rfl⟩
    | inf => exact ⟨0, rfl⟩
    | ninf => exact ⟨0, rfl⟩

/-- C3 counterexample: the sanitizer passes a negative finite response
value through unchanged, so a remotely fetched price pair is not always
non-negative as the claim states. -/
theorem c3_counterexample :
    fetch_price_from_api (FetchOutcome.ok (RawVal.num (FVal.finite (-1))) RawVal.null) =
      some (FVal.finite (-1), FVal.finite 0)
    ∧ isNonNegFV (FVal.finite (-1)) = false := by
  exact ⟨rfl, by decide⟩

/-- C3 (amended): every price pair returned by a remote fetch is finite,
never NaN or infinite; a missing, non-numeric, NaN or infinite response
field is replaced by zero, so the pair minSell nan, maxBuy null yields
(0, 0); a negative finite response value is passed through unchanged. -/
theorem c3_sanitized_finite (outcome : FetchOutcome) (p : FVal × FVal)
    (h : fetch_price_from_api outcome = some p) :
    isFiniteFV p.1 = true ∧ isFiniteFV p.2 = true
    ∧ (∀ v, (v = RawVal.null ∨ v = RawVal.nonNum ∨ v = RawVal.num FVal.nan ∨
        v = RawVal.num FVal.inf ∨ v = RawVal.num FVal.ninf) →
        to_finite_float v = FVal.finite 0)
    ∧ fetch_price_from_api (FetchOutcome.ok (RawVal.num FVal.nan) RawVal.null) =
        some (FVal.finite 0, FVal.finite 0) := by
  have hbad : ∀ v, (v = RawVal.null ∨ v = RawVal.nonNum ∨ v = RawVal.num FVal.nan ∨
      v = RawVal.num FVal.inf ∨ v = RawVal.num FVal.ninf) →
      to_finite_float v = FVal.finite 0 := by
    rintro v (rfl | rfl | rfl | rfl | rfl) <;> rfl
  cases outcome with
  | ok ms mb =>
    have hp : p = (to_finite_float ms, to_finite_float mb) := by
      unfold fetch_price_from_api at h
      exact (Option.some.injEq .. ▸ h).symm
    subst hp
    obtain ⟨q1, hq1⟩ := to_finite_float_finite ms
    obtain ⟨q2, hq2⟩ := to_finite_float_finite mb
    refine ⟨?_, ?_, hbad, rfl⟩
    · show isFiniteFV (to_finite_float ms) = true
      rw [hq1]
      rfl
    · show isFiniteFV (to_finite_float mb) = true
      rw [hq2]
      rfl
  | transportError => exact absurd h (by simp [fetch_price_from_api])
  | timeout => exact absurd h (by simp [fetch_price_from_api])
  | httpError => exact absurd h (by simp [fetch_price_from_api])
  | badPayload => exact absurd h (by simp [fetch_price_from_api])

/-- C3 witness: a response with a NaN ask and a finite bid sanitizes to a
pair of finite values. -/
theorem c3_sanitized_finite_witness :
    fetch_price_from_api (FetchOutcome.ok (RawVal.num FVal.nan) (RawVal.num (FVal.finite 25))) =
      some (FVal.finite 0, FVal.finite 25)
    ∧ isFiniteFV (FVal.finite 0) = true ∧ isFiniteFV (FVal.finite 25) = true := by
  have h := c3_sanitized_finite (FetchOutcome.ok (RawVal.num FVal.nan) (RawVal.num (FVal.finite 25)))
    (FVal.finite 0, FVal.finite 25) rfl
  exact ⟨rfl, h.1, h.2.1⟩

/-- C6: a cache get returns the stored pair exactly while the age of the entry
stays strictly below the four-hour TTL, returns a miss when no row exists,
and in particular an entry stored at t0 is a hit one second before the TTL
elapses and a miss one second after. -/
theorem c6_cache_ttl (cache : Nat → Option (FVal × FVal × Int)) (tid : Nat)
    (ms mb : FVal) (t0 : Int) (hstored : cache tid = some (ms, mb, t0)) :
    (∀ now : Rat, get_cached_price cache now tid =
      if now - (t0 : Rat) < (CACHE_DURATION_SECONDS : Rat) then some (ms, mb) else none)
    ∧ (∀ (cache2 : Nat → Option (FVal × FVal × Int)) (now : Rat), cache2 tid = none →
        get_cached_price cache2 now tid = none)
    ∧ get_cached_price cache ((t0 : Rat) + (CACHE_DURATION_SECONDS : Rat) - 1) tid =
        some (ms, mb)
    ∧ get_cached_price cache ((t0 : Rat) + (CACHE_DURATION_SECONDS : Rat) + 1) tid = none := by
  have hfun : ∀ now : Rat, get_cached_price cache now tid =
      if now - (t0 : Rat) < (CACHE_DURATION_SECONDS : Rat) then some (ms, mb) else none := by
    intro now
    unfold get_cached_price
    rw [hstored]
  refine ⟨hfun, ?_, ?_, ?_⟩
  · intro cache2 now h2
    unfold get_cached_price
    rw [h2]
  · rw [hfun, if_pos (by linarith)]
  · rw [hfun, if_neg (by intro hcon; linarith)]

/-- Cache table with one row, stored at time 1000 under id 7, for the C6
witness. -/
def cacheEx : Nat → Option (FVal × FVal × Int) :=
  fun i => if i = 7 then some (FVal.finite 100, FVal.finite 90, 1000) else none

/-- C6 witness: the singleton cache row is a hit one second before its TTL
elapses and a miss one second after. -/
theorem c6_cache_ttl_witness :
    cacheEx 7 = some (FVal.finite 100, FVal.finite 90, 1000)
    ∧ get_cached_price cacheEx ((1000 : Rat) + (CACHE_DURATION_SECONDS : Rat) - 1) 7 =
        some (FVal.finite 100, FVal.finite 90)
    ∧ get_cached_price cacheEx ((1000 : Rat) + (CACHE_DURATION_SECONDS : Rat) + 1) 7 = none := by
  have h := c6_cache_ttl cacheEx 7 (FVal.finite 100) (FVal.finite 90) 1000 rfl
  refine ⟨rfl, ?_, ?_⟩
  · have h1 := h.2.2.1
    norm_num at h1 ⊢
    exact h1
  · have h1 := h.2.2.2
    norm_num at h1 ⊢
    exact h1

theorem pending_fetch_result (env : PriceEnv) (names : List String) (n : String) (t : Nat)
    (hpend : dictLookup (items_to_fetch env names) n = some t) :
    n ∈ names ∧ (processName env n).1 = Classified.needFetch t ∧
    dictLookup (get_prices_for_items env names).1 n = some (fetchEntry env (n, t)).1 := by
  have htf := p1fold_tf_lookup env names n ([], [], [])
  have hpend2 : dictLookup (names.foldl (p1step env) ([], [], [])).2.1 n = some t := hpend
  rw [htf] at hpend2
  by_cases hmem : n ∈ names
  · rw [if_pos hmem] at hpend2
    cases hcl : (processName env n).1 with
    | res r =>
      rw [hcl] at hpend2
      simp [dictLookup] at hpend2
    | needFetch t0 =>
      rw [hcl] at hpend2
      dsimp only at hpend2
      obtain rfl : t0 = t := by injection hpend2
      refine ⟨hmem, rfl, ?_⟩
      rw [get_prices_lookup, if_pos hmem]
      unfold finalRes
      rw [hcl]
  · rw [if_neg hmem] at hpend2
    simp [dictLookup] at hpend2

/-- C4: an error outcome (transport error, timeout, bad status or bad
payload) on the fetch of one pending identifier turns exactly the entry of that name
into a zero-valued api_fail result, while the entry of every other pending name
is still determined by its own fetch outcome; the embedding of the batch
call is total, reflecting that no exception escapes it. -/
theorem c4_failed_fetch_isolated (env : PriceEnv) (names : List String) (n : String) (t : Nat)
    (hpend : dictLookup (items_to_fetch env names) n = some t)
    (hfail : env.fetchOut t = FetchOutcome.transportError ∨
      env.fetchOut t = FetchOutcome.timeout ∨
      env.fetchOut t = FetchOutcome.httpError ∨
      env.fetchOut t = FetchOutcome.badPayload) :
    dictLookup (get_prices_for_items env names).1 n =
      some ⟨FVal.finite 0, FVal.finite 0, "api_fail", t⟩
    ∧ (∀ n2 t2, n2 ≠ n → dictLookup (items_to_fetch env names) n2 = some t2 →
        dictLookup (get_prices_for_items env names).1 n2 = some (fetchEntry env (n2, t2)).1) := by
  obtain ⟨hmem, hcl, hfin⟩ := pending_fetch_result env names n t hpend
  constructor
  · rw [hfin]
    have hnone : fetch_price_from_api (env.fetchOut t) = none := by
      rcases hfail with h | h | h | h <;> rw [h] <;> rfl
    unfold fetchEntry
    rw [hnone]
  · intro n2 t2 _ hp2
    exact (pending_fetch_result env names n2 t2 hp2).2.2

/-- SDE table of the witness environment. -/
def sdeEx : String → Option Nat :=
  fun n => if n = "Alpha" then some 1 else if n = "Beta" then some 2
    else if n = "Gamma" then some 3 else none

/-- Environment of the C4 witness: an empty cache, so all three names are
batched, and a fetch oracle timing out on id 2 only. -/
def envEx : PriceEnv :=
  { sde := sdeEx,
    cache := fun _ => none,
    now := 0,
    fetchOut := fun t =>
      if t = 1 then FetchOutcome.ok (RawVal.num (FVal.finite 100)) (RawVal.num (FVal.finite 90))
      else if t = 3 then FetchOutcome.ok (RawVal.num (FVal.finite 7)) (RawVal.num (FVal.finite 5))
      else FetchOutcome.timeout }

/-- Input names of the C4 witness batch. -/
def namesEx : List String := ["Alpha", "Beta", "Gamma"]

/-- C4 witness: with id 2 timing out, Beta alone becomes api_fail with
zero prices and Alpha and Gamma keep their fetched values. -/
theorem c4_failed_fetch_isolated_witness :
    dictLookup (items_to_fetch envEx namesEx) "Beta" = some 2
    ∧ dictLookup (get_prices_for_items envEx namesEx).1 "Beta" =
        some ⟨FVal.finite 0, FVal.finite 0, "api_fail", 2⟩
    ∧ dictLookup (get_prices_for_items envEx namesEx).1 "Alpha" =
        some ⟨FVal.finite 100, FVal.finite 90, "api", 1⟩
    ∧ dictLookup (get_prices_for_items envEx namesEx).1 "Gamma" =
        some ⟨FVal.finite 7, FVal.finite 5, "api", 3⟩ := by
  have h := c4_failed_fetch_isolated envEx namesEx "Beta" 2 (by decide) (by decide)
  refine ⟨by decide, h.1, ?_, ?_⟩
  · rw [h.2 "Alpha" 1 (by decide) (by decide)]
    decide
  · rw [h.2 "Gamma" 3 (by decide) (by decide)]
    decide

/-- C5: a name of the never-price category (containing Blueprint) gets a
zero-valued blueprint_skip entry whose identifier is resolved for
bookkeeping only, never joins the fetch batch, and triggers no cache read,
no cache write and no fetch: the only effect attributed to it is its SDE
lookup. -/
theorem c5_blueprint_skipped (env : PriceEnv) (names : List String) (name : String)
    (hbp : containsSeq ("Blueprint".data) name.data = true) (hmem : name ∈ names) :
    dictLookup (get_prices_for_items env names).1 name =
      some ⟨FVal.finite 0, FVal.finite 0, "blueprint_skip", (env.sde name).getD 0⟩
    ∧ dictLookup (items_to_fetch env names) name = none
    ∧ (∀ ev ∈ (get_prices_for_items env names).2, evName ev = name → ev = Ev.sdeRead name) := by
  have hpn := processName_blueprint env name hbp
  refine ⟨?_, ?_, ?_⟩
  · rw [get_prices_lookup, if_pos hmem]
    unfold finalRes
    rw [hpn]
  · show dictLookup (names.foldl (p1step env) ([], [], [])).2.1 name = none
    rw [p1fold_tf_lookup env names name ([], [], []), if_pos hmem, hpn]
    rfl
  · intro ev hev hevn
    rw [get_prices_trace] at hev
    rcases List.mem_append.mp hev with h1 | h2
    · obtain ⟨m, hm, hevm⟩ := traceOf_mem _ _ _ h1
      by_cases hmn : m = name
      · subst hmn
        rw [hpn] at hevm
        simpa using hevm
      · have hn2 := processName_evName env m ev hevm
        rw [hevn] at hn2
        exact absurd hn2.symm hmn
    · obtain ⟨p, hp, hevp⟩ := traceOf_mem _ _ _ h2
      have hent := p1fold_tf_entries env names ([], [], [])
        (by intro p2 hp2; simp at hp2) p hp
      have hnb := processName_needFetch_not_blueprint env p.1 p.2 hent
      have hp1 : p.1 ≠ name := by
        intro he
        rw [he, hbp] at hnb
        exact Bool.true_eq_false.mp hnb
      have hn2 := fetchEntry_evName env p ev hevp
      rw [hevn] at hn2
      exact absurd hn2.symm hp1

/-- Names of the C5 witness batch. -/
def namesBp : List String := ["Widget Blueprint", "Alpha"]

/-- C5 witness: the blueprint name in the batch is skipped with zero
prices and is not in the fetch dict. -/
theorem c5_blueprint_skipped_witness :
    containsSeq ("Blueprint".data) ("Widget Blueprint" : String).data = true
    ∧ ("Widget Blueprint" : String) ∈ namesBp
    ∧ dictLookup (get_prices_for_items envEx namesBp).1 "Widget Blueprint" =
        some ⟨FVal.finite 0, FVal.finite 0, "blueprint_skip", 0⟩
    ∧ dictLookup (items_to_fetch envEx namesBp) "Widget Blueprint" = none := by
  have h := c5_blueprint_skipped envEx namesBp "Widget Blueprint" (by decide) (by decide)
  refine ⟨by decide, by decide, ?_, h.2.1⟩
  rw [h.1]
  decide

theorem p2fold_wf (env : PriceEnv) (L : List (String × Nat)) :
    ∀ r0 : List (String × PriceResult), DictWF r0 →
      DictWF (L.foldl (fun r p => dictInsert r p.1 (fetchEntry env p).1) r0) := by
  induction L with
  | nil => intro r0 h; exact h
  | cons p rest ih =>
    intro r0 h
    simp only [List.foldl_cons]
    exact ih _ (DictWF_dictInsert p.1 _ h)

theorem processName_res_cases (env : PriceEnv) (n : String) (r : PriceResult)
    (h : (processName env n).1 = Classified.res r) :
    r = ⟨FVal.finite 0, FVal.finite 0, "blueprint_skip", (env.sde n).getD 0⟩
    ∨ r = ⟨FVal.finite 0, FVal.finite 0, "not_found", 0⟩
    ∨ (∃ ms mb tid, r = ⟨ms, mb, "cache", tid⟩ ∧
        get_cached_price env.cache env.now tid = some (ms, mb)) := by
  unfold processName at h
  by_cases hbp : containsSeq ("Blueprint".data) n.data
  · rw [if_pos hbp] at h
    dsimp only at h
    left
    injection h with h
    exact h.symm
  · rw [if_neg hbp] at h
    cases hs : env.sde n with
    | none =>
      rw [hs] at h
      dsimp only at h
      injection h with h
      right; left
      exact h.symm
    | some tid =>
      rw [hs] at h
      dsimp only at h
      by_cases ht : tid = 0
      · rw [if_pos ht] at h
        injection h with h
        right; left
        exact h.symm
      · rw [if_neg ht] at h
        cases hc : get_cached_price env.cache env.now tid with
        | none =>
          rw [hc] at h
          exact absurd h (by simp)
        | some pr =>
          obtain ⟨ms, mb⟩ := pr
          rw [hc] at h
          dsimp only at h
          injection h with h
          right; right
          exact ⟨ms, mb, tid, h.symm, hc⟩

theorem finalRes_zero_sources (env : PriceEnv) (n : String)
    (hsrc : (finalRes env n).source = "blueprint_skip" ∨
      (finalRes env n).source = "not_found" ∨ (finalRes env n).source = "api_fail") :
    (finalRes env n).min_sell = FVal.finite 0 ∧ (finalRes env n).max_buy = FVal.finite 0 := by
  unfold finalRes at hsrc ⊢
  revert hsrc
  cases hcl : (processName env n).1 with
  | res r =>
    intro hsrc
    dsimp only at hsrc ⊢
    rcases processName_res_cases env n r hcl with hr | hr | ⟨ms, mb, tid, hr, _⟩
    · rw [hr]
      exact ⟨rfl, rfl⟩
    · rw [hr]
      exact ⟨rfl, rfl⟩
    · subst hr
      dsimp only at hsrc
      rcases hsrc with hx | hx | hx <;> exact absurd hx (by decide)
  | needFetch t =>
    intro hsrc
    dsimp only at hsrc ⊢
    unfold fetchEntry at hsrc ⊢
    dsimp only at hsrc ⊢
    revert hsrc
    cases hf : fetch_price_from_api (env.fetchOut t) with
    | none =>
      intro _
      exact ⟨rfl, rfl⟩
    | some pr =>
      obtain ⟨ms, mb⟩ := pr
      intro hsrc
      dsimp only at hsrc
      rcases hsrc with hx | hx | hx <;> exact absurd hx (by decide)

/-- C8: the dict returned by the batch call has an entry exactly for every
input name, its keys are pairwise distinct, and every entry whose source is
blueprint_skip, not_found or api_fail carries the zero price pair. -/
theorem c8_one_entry_per_name (env : PriceEnv) (names : List String) :
    (∀ n, (dictLookup (get_prices_for_items env names).1 n).isSome = true ↔ n ∈ names)
    ∧ DictWF (get_prices_for_items env names).1
    ∧ (∀ n r, dictLookup (get_prices_for_items env names).1 n = some r →
        (r.source = "blueprint_skip" ∨ r.source = "not_found" ∨ r.source = "api_fail") →
        r.min_sell = FVal.finite 0 ∧ r.max_buy = FVal.finite 0) := by
  refine ⟨?_, ?_, ?_⟩
  · intro n
    rw [get_prices_lookup]
    by_cases hmem : n ∈ names
    · simp [hmem]
    · simp [hmem]
  · have hwf := p1fold_wf env names ([], [], []) (by simp [DictWF]) (by simp [DictWF])
    exact p2fold_wf env (phase1 env names).2.1 (phase1 env names).1 hwf.1
  · intro n r h hsrc
    rw [get_prices_lookup] at h
    by_cases hmem : n ∈ names
    · rw [if_pos hmem] at h
      obtain rfl : finalRes env n = r := by injection h
      exact finalRes_zero_sources env n hsrc
    · rw [if_neg hmem] at h
      exact absurd h (by simp)

/-- C8 witness: in the three-name batch every input name has exactly one
entry and the failed one carries the zero pair. -/
theorem c8_one_entry_per_name_witness :
    (dictLookup (get_prices_for_items envEx namesEx).1 "Alpha").isSome = true
    ∧ DictWF (get_prices_for_items envEx namesEx).1
    ∧ ((⟨FVal.finite 0, FVal.finite 0, "api_fail", 2⟩ : PriceResult).min_sell = FVal.finite 0
      ∧ (⟨FVal.finite 0, FVal.finite 0, "api_fail", 2⟩ : PriceResult).max_buy = FVal.finite 0) := by
  have h := c8_one_entry_per_name envEx namesEx
  exact ⟨(h.1 "Alpha").mpr (by decide), h.2.1,
    h.2.2 "Beta" ⟨FVal.finite 0, FVal.finite 0, "api_fail", 2⟩ (by decide) (by decide)⟩
